import Mathlib

/-!
Verification of the panel merge / derived-metrics engine of the
Corporate_Bond_Dashboard repository (src/compute_series.py, src/charts.py).

Calendar dates are modelled as integer day numbers; float values as exact
rationals, with pandas NaN ("missing") modelled as `none` in `Option ℚ`.
A one-calendar-year offset is modelled as 365 days.
-/

namespace BondDashboard

/-- A normalized source series (`load_series` output): canonical column name
plus rows of (date, optional value), value `none` where the raw token was
non-numeric (pandas `to_numeric(errors="coerce")`). -/
abbrev Rows := List (Int × Option ℚ)

structure Source where
  col : String
  rows : Rows
deriving DecidableEq

/-- `load_series` (src/compute_series.py lines 62-78), restricted to the part
the claims are about: after the date/value columns have been selected, each
row's date token is parsed (`pd.to_datetime(..., errors="coerce")`, modelled by
the abstract `parseDate`, unparsable tokens giving `none` for NaT) and the
value token coerced to numeric (`parseNum`, `none` for NaN); the rows are then
sorted by date index (`sort_index`), NaT keys last, as pandas places them. -/
def dateKeyLe (a b : Option Int) : Bool :=
  match a, b with
  | none, none => true
  | none, some _ => false
  | some _, none => true
  | some x, some y => decide (x ≤ y)

def load_series {δ ν : Type} (parseDate : δ → Option Int) (parseNum : ν → Option ℚ)
    (raw : List (δ × ν)) : List (Option Int × Option ℚ) :=
  List.insertionSort (fun r s => dateKeyLe r.1 s.1 = true)
    (raw.map (fun r => (parseDate r.1, parseNum r.2)))

/-- The merged Panel: one shared date index, one (name, values) column per
source, values aligned positionally with the date index. -/
structure Panel where
  dates : List Int
  cols : List (String × List (Option ℚ))
deriving DecidableEq

/-- The date axis of `pd.concat(frames, axis=1).sort_index()`: the sorted
union (no duplicates) of all the input indices. -/
def allDates (frames : List Source) : List Int :=
  List.insertionSort (fun a b => a ≤ b)
    ((frames.map (fun s => s.rows.map Prod.fst)).flatten.dedup)

/-- The cell the concat step places at date `a` for one source: its observed
value when `a` is in the source's index, NaN (`none`) otherwise.  An observed
NaN and an absent date are both NaN in the concat output, exactly as here. -/
def obsAt (rows : Rows) (a : Int) : Option ℚ :=
  match rows.find? (fun r => decide (r.1 = a)) with
  | some r => r.2
  | none => none

/-- One step of pandas `ffill`: a non-NaN cell replaces the carry, a NaN cell
keeps it. -/
def ffStep (obs : Int → Option ℚ) (carry : Option ℚ) (a : Int) : Option ℚ :=
  match obs a with
  | some x => some x
  | none => carry

/-- `DataFrame.ffill` down one column: scan the date index in order, carrying
the last non-NaN cell forward. -/
def ffillVals (obs : Int → Option ℚ) : Option ℚ → List Int → List (Option ℚ)
  | _, [] => []
  | carry, a :: L => ffStep obs carry a :: ffillVals obs (ffStep obs carry a) L

def ffillColumn (D : List Int) (s : Source) : List (Option ℚ) :=
  ffillVals (obsAt s.rows) none D

/-- `pd.concat(frames, axis=1).sort_index()` followed by `merged.ffill()`
(src/compute_series.py lines 91-93), on a nonempty list of frames. -/
def mergePanel (frames : List Source) : Panel :=
  ⟨allDates frames, frames.map (fun s => (s.col, ffillColumn (allDates frames) s))⟩

/-- `merge_all` (src/compute_series.py lines 81-94): sources that failed to
load are `none` and are skipped; if none loaded, a RuntimeError is raised
(modelled as `Except.error` with the source's message). -/
def merge_all (loaded : List (Option Source)) : Except String Panel :=
  let frames := loaded.filterMap id
  if frames.isEmpty then
    Except.error "No raw series found. Run fetch_fred.py first."
  else
    Except.ok (mergePanel frames)

/-- Column lookup in a Panel (`df[c]`). -/
def colValues (p : Panel) (c : String) : Option (List (Option ℚ)) :=
  (p.cols.find? (fun r => decide (r.1 = c))).map Prod.snd

def hasCol (p : Panel) (c : String) : Bool :=
  p.cols.any (fun r => decide (r.1 = c))

def getCol (p : Panel) (c : String) : List (Option ℚ) :=
  (colValues p c).getD []

/-- The Panel's cell for column `c` at date `d` (`df.loc[d, c]`). -/
def valueAt (p : Panel) (c : String) (d : Int) : Option ℚ :=
  match colValues p c with
  | none => none
  | some vs => ((p.dates.zip vs).find? (fun r => decide (r.1 = d))).bind Prod.snd

/-- The spec's "most recent non-missing observed value at a date ≤ d": among a
source's rows with a non-missing value and date ≤ d, the one with the greatest
date (`none` when no such observation exists). -/
def bestObs : Rows → Int → Option (Int × ℚ)
  | [], _ => none
  | (_, none) :: rest, d => bestObs rest d
  | (a, some v) :: rest, d =>
    if a ≤ d then
      match bestObs rest d with
      | none => some (a, v)
      | some q => if q.1 < a then some (a, v) else some q
    else bestObs rest d

def mostRecentObs (rows : Rows) (d : Int) : Option ℚ :=
  (bestObs rows d).map Prod.snd

/-! ## Derived metrics (`add_derived`, src/compute_series.py lines 97-118) -/

/-- Elementwise float subtraction with NaN propagation. -/
def optSub (a b : Option ℚ) : Option ℚ :=
  match a, b with
  | some x, some y => some (x - y)
  | _, _ => none

def addCol (p : Panel) (c : String) (vs : List (Option ℚ)) : Panel :=
  ⟨p.dates, p.cols ++ [(c, vs)]⟩

def subCols (p : Panel) (a b : String) : List (Option ℚ) :=
  List.zipWith optSub (getCol p a) (getCol p b)

/-- The three arithmetic derived columns (lines 99-107): each added only when
both of its inputs are present (`issubset` checks), in order, on the
accumulating frame `out`. -/
def add_arith (p : Panel) : Panel :=
  let p1 := if hasCol p "HY_OAS" && hasCol p "IG_OAS" then
      addCol p "HY_IG_SPREAD" (subCols p "HY_OAS" "IG_OAS") else p
  let p2 := if hasCol p1 "BAA_YIELD" && hasCol p1 "DGS10" then
      addCol p1 "BAA_10Y_SPREAD" (subCols p1 "BAA_YIELD" "DGS10") else p1
  if hasCol p2 "DGS10" && hasCol p2 "DGS2" then
    addCol p2 "TWOS_TENS" (subCols p2 "DGS10" "DGS2") else p2

/-- The non-NaN values in the trailing window of `w` rows ending at and
including row `t` (pandas `rolling(w)` at position `t`). -/
def windowVals (vals : List (Option ℚ)) (w t : ℕ) : List ℚ :=
  ((vals.take (t + 1)).drop (t + 1 - w)).filterMap id

def rollingCount (vals : List (Option ℚ)) (w t : ℕ) : ℕ :=
  (windowVals vals w t).length

def rollingMean (vals : List (Option ℚ)) (w t : ℕ) : ℚ :=
  (windowVals vals w t).sum / (rollingCount vals w t : ℚ)

/-- Population variance of the window (`rolling.std(ddof=0)` squared):
divisor N, not N - 1. -/
def rollingVar (vals : List (Option ℚ)) (w t : ℕ) : ℚ :=
  ((windowVals vals w t).map (fun x => (x - rollingMean vals w t) ^ 2)).sum
    / (rollingCount vals w t : ℚ)

/-- The z cell `(out[c] - rolling.mean()) / rolling.std(ddof=0)` at row `t`
(line 116).  In float semantics the cell is NaN exactly when the value at `t`
is NaN, or the window holds fewer than `minp` observations (rolling mean/std
are NaN), or the rolling std is exactly zero (the quotient is 0.0/0.0 = NaN);
otherwise it is the finite real quotient.  The guards below unfold that NaN
propagation into `Option`. -/
noncomputable def rollingZ (vals : List (Option ℚ)) (w minp t : ℕ) : Option ℝ :=
  match vals.getD t none with
  | none => none
  | some x =>
    if rollingCount vals w t < minp then none
    else if rollingVar vals w t = 0 then none
    else some (((x : ℝ) - (rollingMean vals w t : ℝ)) / Real.sqrt (rollingVar vals w t))

def zWhitelist : List String :=
  ["IG_OAS", "HY_OAS", "HY_IG_SPREAD", "BAA_10Y_SPREAD", "TWOS_TENS"]

noncomputable def zColumn (vals : List (Option ℚ)) : List (Option ℝ) :=
  (List.range vals.length).map (fun t => rollingZ vals 90 (90 / 3) t)

/-- `add_derived` output: the arithmetic columns stay rational; the z-score
columns (line 114-117: window 90, `min_periods = window // 3`, one column
`c_Z90` per whitelisted column present in `out`) take real values because of
the square root in the standard deviation. -/
structure DerivedPanel where
  dates : List Int
  cols : List (String × List (Option ℚ))
  zcols : List (String × List (Option ℝ))

noncomputable def add_derived (p : Panel) : DerivedPanel :=
  let q := add_arith p
  ⟨q.dates, q.cols,
    (zWhitelist.filter (fun c => hasCol q c)).map
      (fun c => (c ++ "_Z90", zColumn (getCol q c)))⟩

/-! ## Chart-layer computations (src/charts.py) -/

/-- The fold state of the `for dt, val in rec.items()` loop of
`recession_spans` (lines 44-52): `in_rec`, the last opened `start` (the code's
`start` is only read after it has been set; it is carried here as a plain
`Int`), and the spans accumulated so far. -/
def spansFold (l : List (Int × ℕ)) : Bool × Int × List (Int × Int) :=
  l.foldl
    (fun st r =>
      if r.2 = 1 && !st.1 then (true, r.1, st.2.2)
      else if r.2 = 0 && st.1 then (false, st.2.1, st.2.2 ++ [(st.2.1, r.1)])
      else st)
    (false, 0, [])

/-- `recession_spans` (src/charts.py lines 38-55): drop missing USREC values,
threshold `> 0.5` to a 0/1 indicator, walk in date order opening a span on
0→1 and closing it on 1→0; a span still open at the end closes at the last
date of the (dropna'd) indicator. -/
def recession_spans (p : Panel) : List (Int × Int) :=
  match colValues p "USREC" with
  | none => []
  | some vs =>
    let rec' := (p.dates.zip vs).filterMap
      (fun r => r.2.map (fun v => (r.1, if (0.5 : ℚ) < v then (1 : ℕ) else 0)))
    let st := spansFold rec'
    match rec'.getLast? with
    | some lastR => if st.1 then st.2.2 ++ [(st.2.1, lastR.1)] else st.2.2
    | none => st.2.2

/-- `round(x, 2)` on an exact value (Python's float rounding is banker's at
exact half-ulp ties; no claim touches such a tie). -/
def round2 (x : ℚ) : ℚ :=
  ((round (x * 100) : ℤ) : ℚ) / 100

structure SummaryRow where
  metric : String
  current : Option ℚ
  hi : Option ℚ
  lo : Option ℚ
deriving DecidableEq

def metricsList : List (String × String) :=
  [("HY_OAS", "HY OAS"), ("IG_OAS", "IG OAS"), ("HY_IG_SPREAD", "HY – IG"),
   ("BAA_10Y_SPREAD", "Baa – 10y"), ("TWOS_TENS", "2s10s")]

/-- The non-missing values of a column over the rows with date ≥ cutoff
(the `sub = df.loc[df.index >= one_year_ago]` restriction; pandas max/min
skip NaN). -/
def windowObs (p : Panel) (c : String) (cutoff : Int) : List ℚ :=
  (((p.dates.zip (getCol p c)).filter
    (fun r => decide (cutoff ≤ r.1))).map Prod.snd).filterMap id

/-- `build_current_table` (src/charts.py lines 92-120): `end` is the latest
date, the window keeps rows with date ≥ end - 1 year (365 days in this
model), and per metric present in the Panel the row holds the last value of
the column (`iloc[-1]`), and the max and min over the window's non-missing
values (pandas max/min skip NaN; an all-NaN window gives NaN, rendered as
`None` by the `pd.notna` guard, as is a NaN current value). -/
def build_current_table (p : Panel) : List SummaryRow :=
  match p.dates.max? with
  | none => []
  | some e =>
    metricsList.filterMap
      (fun m =>
        if hasCol p m.1 then
          let cur := ((getCol p m.1).getLast?).getD none
          let sub := windowObs p m.1 (e - 365)
          some ⟨m.2, cur.map round2, sub.max?.map round2, sub.min?.map round2⟩
        else none)

/-! ## Lemmas about the merged date axis -/

lemma sorted_le_allDates (frames : List Source) : (allDates frames).Sorted (· ≤ ·) :=
  List.sorted_insertionSort _ _

lemma nodup_allDates (frames : List Source) : (allDates frames).Nodup :=
  (List.perm_insertionSort _ _).nodup_iff.mpr (List.nodup_dedup _)

lemma sorted_lt_allDates (frames : List Source) : (allDates frames).Sorted (· < ·) :=
  ((sorted_le_allDates frames).and (nodup_allDates frames)).imp
    (fun h => lt_of_le_of_ne h.1 h.2)

lemma mem_allDates {frames : List Source} {a : Int} :
    a ∈ allDates frames ↔ ∃ s ∈ frames, a ∈ s.rows.map Prod.fst := by
  unfold allDates
  rw [(List.perm_insertionSort _ _).mem_iff, List.mem_dedup, List.mem_flatten]
  constructor
  · rintro ⟨L, hL, haL⟩
    rcases List.mem_map.mp hL with ⟨s, hs, rfl⟩
    exact ⟨s, hs, haL⟩
  · rintro ⟨s, hs, ha⟩
    exact ⟨s.rows.map Prod.fst, List.mem_map_of_mem _ hs, ha⟩

/-- C2: the Panel's date index is strictly ascending with no duplicates and
is exactly the union of the per-source input date sets. -/
theorem merged_date_index (frames : List Source)
    (hvalid : ∀ s ∈ frames, (s.rows.map Prod.fst).Nodup) :
    (mergePanel frames).dates.Sorted (· < ·) ∧
    ∀ d : Int, d ∈ (mergePanel frames).dates ↔ ∃ s ∈ frames, d ∈ s.rows.map Prod.fst := by
  refine ⟨sorted_lt_allDates frames, fun d => ?_⟩
  exact mem_allDates

def wSrcA : Source := ⟨"A", [(1, some 1)]⟩
def wSrcB : Source := ⟨"B", [(1, some 2), (2, some 3), (4, some 4)]⟩

theorem merged_date_index_witness :
    (mergePanel [wSrcA, wSrcB]).dates.Sorted (· < ·) ∧
    (2 ∈ (mergePanel [wSrcA, wSrcB]).dates ↔
      ∃ s ∈ [wSrcA, wSrcB], 2 ∈ s.rows.map Prod.fst) :=
  ⟨(merged_date_index [wSrcA, wSrcB] (by decide)).1,
   (merged_date_index [wSrcA, wSrcB] (by decide)).2 2⟩

/-- C7: the merge fails hard (no Panel produced) exactly when no source
normalized; with at least one normalized source it proceeds on the available
subset. -/
theorem merge_no_sources (loaded : List (Option Source)) :
    ((∃ e, merge_all loaded = Except.error e) ↔ ∀ x ∈ loaded, x = none) ∧
    ((∃ s, some s ∈ loaded) →
      merge_all loaded = Except.ok (mergePanel (loaded.filterMap id))) := by
  have hnil : loaded.filterMap id = [] ↔ ∀ x ∈ loaded, x = none := by
    rw [List.filterMap_eq_nil_iff]
    constructor
    · intro h x hx
      simpa using h x hx
    · intro h x hx
      simp [h x hx]
  constructor
  · constructor
    · rintro ⟨e, he⟩
      by_contra hcon
      have hne : ¬ (loaded.filterMap id).isEmpty = true := by
        simpa [List.isEmpty_iff, hnil] using hcon
      simp only [merge_all, if_neg hne] at he
      exact Except.noConfusion he
    · intro h
      refine ⟨"No raw series found. Run fetch_fred.py first.", ?_⟩
      have : (loaded.filterMap id).isEmpty = true := by
        simpa [List.isEmpty_iff] using hnil.mpr h
      simp [merge_all, this]
  · rintro ⟨s, hs⟩
    have hmem : s ∈ loaded.filterMap id := List.mem_filterMap.mpr ⟨some s, hs, rfl⟩
    have hne : ¬ (loaded.filterMap id).isEmpty = true := by
      rw [List.isEmpty_iff]
      intro h
      rw [h] at hmem
      exact List.not_mem_nil s hmem
    simp [merge_all, hne]

theorem merge_no_sources_witness :
    (∃ e, merge_all ([none] : List (Option Source)) = Except.error e) ∧
    merge_all [some wSrcA, none] = Except.ok (mergePanel ([some wSrcA, none].filterMap id)) :=
  ⟨(merge_no_sources [none]).1.mpr (by decide),
   (merge_no_sources [some wSrcA, none]).2 ⟨wSrcA, by decide⟩⟩

/-! ## Interval extraction -/

def recPanel8 : Panel :=
  ⟨[1, 2, 3, 4, 5, 6, 7, 8],
   [("USREC", [some 0, some 0, some 1, some 1, some 1, some 0, some 1, some 0])]⟩

def recPanel3 : Panel := ⟨[1, 2, 3], [("USREC", [some 0, some 1, some 1])]⟩

/-- C3: interval extraction walks the thresholded indicator in date order; an
interval opens at the first active date and closes at the first inactive date
after the run, and a run still active at the end closes at the last date.  The
indicator [0,0,1,1,1,0,1,0] on dates 1..8 yields [(3,6), (7,8)]; [0,1,1] on
1,2,3 yields [(2,3)]. -/
theorem recession_spans_examples :
    recession_spans recPanel8 = [(3, 6), (7, 8)] ∧
    recession_spans recPanel3 = [(2, 3)] := by
  constructor <;>
    norm_num [recession_spans, colValues, spansFold, recPanel8, recPanel3,
      List.filterMap_cons, List.foldl_cons, List.foldl_nil]

/-! ## SourceNormalizer: unparsable dates -/

/-- C10 counterexample: the normalizer does not drop a row whose date fails to
parse.  `pd.to_datetime(..., errors="coerce")` turns it into NaT and
`set_index(...).sort_index()` keeps the NaT key (sorted last); nothing in
`load_series` drops it.  Concretely, a two-row table whose second row has an
unparsable date yields an output whose date index still contains the missing
(NaT) key. -/
theorem normalizer_unparsable_cex :
    none ∈ (load_series (id : Option Int → Option Int) (id : Option ℚ → Option ℚ)
      [(some 1, some 1), (none, some 2)]).map Prod.fst := by
  decide

/-- C10 amended: rows with unparsable dates are retained (with a missing NaT
date key), not dropped: the output's date keys are exactly the parse results
of all input rows, reordered only by the sort. -/
theorem normalizer_rows_kept {δ ν : Type} (parseDate : δ → Option Int)
    (parseNum : ν → Option ℚ) (raw : List (δ × ν)) :
    ((load_series parseDate parseNum raw).map Prod.fst).Perm
      (raw.map (fun r => parseDate r.1)) := by
  have h := (List.perm_insertionSort
    (fun r s : Option Int × Option ℚ => dateKeyLe r.1 s.1 = true)
    (raw.map (fun r => (parseDate r.1, parseNum r.2)))).map Prod.fst
  unfold load_series
  simpa [List.map_map, Function.comp] using h

/-! ## Derived-column omission (C6) -/

def colValuesD (dp : DerivedPanel) (c : String) : Option (List (Option ℚ)) :=
  (dp.cols.find? (fun r => decide (r.1 = c))).map Prod.snd

lemma hasCol_addCol (p : Panel) (c c' : String) (vs : List (Option ℚ)) :
    hasCol (addCol p c vs) c' = (hasCol p c' || decide (c = c')) := by
  simp [hasCol, addCol, List.any_append]

lemma hasCol_iff_mem (p : Panel) (c : String) :
    hasCol p c = true ↔ c ∈ p.cols.map Prod.fst := by
  unfold hasCol
  rw [List.any_eq_true]
  constructor
  · rintro ⟨r, hr, hc⟩
    rw [decide_eq_true_eq] at hc
    exact hc ▸ List.mem_map_of_mem Prod.fst hr
  · intro h
    rcases List.mem_map.mp h with ⟨r, hr, hc⟩
    exact ⟨r, hr, by rw [decide_eq_true_eq]; exact hc⟩

lemma not_pair_mem_of_hasCol_false (p : Panel) (c : String)
    (h : hasCol p c = false) (vs : List (Option ℚ)) : (c, vs) ∉ p.cols := by
  intro hm
  have hc : hasCol p c = true := by
    unfold hasCol
    rw [List.any_eq_true]
    exact ⟨(c, vs), hm, by simp⟩
  rw [h] at hc
  exact Bool.noConfusion hc

lemma find?_cols_none (p : Panel) (c : String) (h : hasCol p c = false) :
    p.cols.find? (fun r => decide (r.1 = c)) = none := by
  have hall := List.any_eq_false.mp h
  rw [List.find?_eq_none]
  exact hall

/-- C6: each arithmetic derived column is added exactly when both of its
inputs are present (and is silently omitted otherwise — the embedding is
total, no error is possible); when present, `HY_IG_SPREAD` is the elementwise
difference `HY_OAS - IG_OAS` on the shared date index. -/
theorem derived_column_omission (p : Panel)
    (h1 : hasCol p "HY_IG_SPREAD" = false)
    (h2 : hasCol p "BAA_10Y_SPREAD" = false)
    (h3 : hasCol p "TWOS_TENS" = false) :
    (("HY_IG_SPREAD" ∈ (add_derived p).cols.map Prod.fst) ↔
      (hasCol p "HY_OAS" = true ∧ hasCol p "IG_OAS" = true)) ∧
    (("BAA_10Y_SPREAD" ∈ (add_derived p).cols.map Prod.fst) ↔
      (hasCol p "BAA_YIELD" = true ∧ hasCol p "DGS10" = true)) ∧
    (("TWOS_TENS" ∈ (add_derived p).cols.map Prod.fst) ↔
      (hasCol p "DGS10" = true ∧ hasCol p "DGS2" = true)) ∧
    (hasCol p "HY_OAS" = true → hasCol p "IG_OAS" = true →
      colValuesD (add_derived p) "HY_IG_SPREAD" =
        some (List.zipWith optSub (getCol p "HY_OAS") (getCol p "IG_OAS"))) := by
  have hstage : ∀ (q : Panel) (nm a b c' : String) (vs : List (Option ℚ)),
      hasCol (if hasCol q a && hasCol q b then addCol q nm vs else q) c' =
        (hasCol q c' || (hasCol q a && hasCol q b) && decide (nm = c')) := by
    intro q nm a b c' vs
    cases h : (hasCol q a && hasCol q b) <;> simp [h, hasCol_addCol]
  have hA : ∀ c, hasCol (add_arith p) c =
      (hasCol p c
        || (hasCol p "HY_OAS" && hasCol p "IG_OAS") && decide ("HY_IG_SPREAD" = c)
        || (hasCol p "BAA_YIELD" && hasCol p "DGS10") && decide ("BAA_10Y_SPREAD" = c)
        || (hasCol p "DGS10" && hasCol p "DGS2") && decide ("TWOS_TENS" = c)) := by
    intro c
    unfold add_arith
    simp only [hstage]
    cases hc : hasCol p c <;> cases hHY : hasCol p "HY_OAS" <;>
      cases hIG : hasCol p "IG_OAS" <;> cases hBA : hasCol p "BAA_YIELD" <;>
        cases hT10 : hasCol p "DGS10" <;> cases hT2 : hasCol p "DGS2" <;>
      simp [hc, hHY, hIG, hBA, hT10, hT2, hasCol_addCol, Bool.or_assoc,
        Bool.or_comm, Bool.or_left_comm]
  have hDcols : (add_derived p).cols = (add_arith p).cols := rfl
  refine ⟨?_, ?_, ?_, ?_⟩
  · rw [hDcols, ← hasCol_iff_mem, hA]
    simp [h1, h2, h3]
  · rw [hDcols, ← hasCol_iff_mem, hA]
    simp [h1, h2, h3]
  · rw [hDcols, ← hasCol_iff_mem, hA]
    simp [h1, h2, h3]
  · intro hHY hIG
    have hv : colValuesD (add_derived p) "HY_IG_SPREAD" =
        colValues (add_arith p) "HY_IG_SPREAD" := rfl
    rw [hv]
    unfold add_arith
    rw [hHY, hIG]
    simp only [Bool.and_self, if_true]
    split_ifs <;>
      simp [colValues, addCol, List.find?_append, find?_cols_none p _ h1, subCols]

def cPanelHY : Panel := ⟨[1, 2], [("HY_OAS", [some 5, some 4])]⟩

theorem derived_column_omission_witness :
    (("HY_IG_SPREAD" ∈ (add_derived cPanelHY).cols.map Prod.fst) ↔
      (hasCol cPanelHY "HY_OAS" = true ∧ hasCol cPanelHY "IG_OAS" = true)) ∧
    (("BAA_10Y_SPREAD" ∈ (add_derived cPanelHY).cols.map Prod.fst) ↔
      (hasCol cPanelHY "BAA_YIELD" = true ∧ hasCol cPanelHY "DGS10" = true)) ∧
    (("TWOS_TENS" ∈ (add_derived cPanelHY).cols.map Prod.fst) ↔
      (hasCol cPanelHY "DGS10" = true ∧ hasCol cPanelHY "DGS2" = true)) ∧
    (hasCol cPanelHY "HY_OAS" = true → hasCol cPanelHY "IG_OAS" = true →
      colValuesD (add_derived cPanelHY) "HY_IG_SPREAD" =
        some (List.zipWith optSub (getCol cPanelHY "HY_OAS") (getCol cPanelHY "IG_OAS"))) :=
  derived_column_omission cPanelHY (by decide) (by decide) (by decide)

/-! ## Forward-fill: the scan equals "most recent non-missing observation" -/

lemma ffill_lookup (obs : Int → Option ℚ) :
    ∀ (L : List Int), L.Sorted (· < ·) → ∀ (c : Option ℚ) (d : Int), d ∈ L →
      ((L.zip (ffillVals obs c L)).find? (fun r => decide (r.1 = d))).bind Prod.snd =
        List.foldl (ffStep obs) c (L.filter (fun x => decide (x ≤ d))) := by
  intro L
  induction L with
  | nil => intro _ c d hd; exact absurd hd (List.not_mem_nil d)
  | cons a tl ih =>
    intro hsort c d hd
    have hmax : ∀ x ∈ tl, a < x := fun x hx => (List.sorted_cons.mp hsort).1 x hx
    have htls : tl.Sorted (· < ·) := (List.sorted_cons.mp hsort).2
    have hfilter : (a :: tl).filter (fun x => decide (x ≤ d)) =
        a :: tl.filter (fun x => decide (x ≤ d)) := by
      have had : a ≤ d := by
        rcases List.mem_cons.mp hd with rfl | hdt
        · exact le_refl d
        · exact le_of_lt (hmax d hdt)
      simp [List.filter_cons, had]
    rw [hfilter]
    rcases List.mem_cons.mp hd with rfl | hdt
    · have hft : tl.filter (fun x => decide (x ≤ d)) = [] := by
        rw [List.filter_eq_nil_iff]
        intro x hx
        simp only [decide_eq_true_eq]
        exact not_le_of_lt (hmax x hx)
      rw [hft]
      simp [ffillVals, List.zip_cons_cons, List.find?_cons, List.foldl]
    · have hne : ¬ (a = d) := ne_of_lt (hmax d hdt)
      simp only [ffillVals, List.zip_cons_cons, List.find?_cons, List.foldl]
      rw [decide_eq_false hne]
      exact ih htls (ffStep obs c a) d hdt

lemma foldl_ffStep_eq_none (obs : Int → Option ℚ) :
    ∀ (L : List Int) (c : Option ℚ), List.foldl (ffStep obs) c L = none →
      c = none ∧ ∀ a ∈ L, obs a = none := by
  intro L
  induction L with
  | nil => intro c h; exact ⟨h, by intro a ha; exact absurd ha (List.not_mem_nil a)⟩
  | cons a tl ih =>
    intro c h
    rw [List.foldl_cons] at h
    rcases ih (ffStep obs c a) h with ⟨hstep, htl⟩
    have hobs : obs a = none := by
      unfold ffStep at hstep
      cases ho : obs a
      · rfl
      · rw [ho] at hstep; exact Option.noConfusion hstep
    have hc : c = none := by
      unfold ffStep at hstep
      rw [hobs] at hstep
      exact hstep
    refine ⟨hc, fun b hb => ?_⟩
    rcases List.mem_cons.mp hb with rfl | hbt
    · exact hobs
    · exact htl b hbt

lemma foldl_ffStep_eq_some (obs : Int → Option ℚ) :
    ∀ (L : List Int), L.Sorted (· ≤ ·) → ∀ (v : ℚ),
      List.foldl (ffStep obs) none L = some v →
      ∃ a ∈ L, obs a = some v ∧ ∀ b ∈ L, obs b ≠ none → b ≤ a := by
  intro L
  induction L using List.reverseRecOn with
  | nil => intro _ v h; exact Option.noConfusion h
  | append_singleton tl a ih =>
    intro hsort v h
    have hsp := List.pairwise_append.mp hsort
    have hle : ∀ b ∈ tl, b ≤ a := fun b hb => hsp.2.2 b hb a (List.mem_singleton_self a)
    rw [List.foldl_append, List.foldl_cons, List.foldl_nil] at h
    cases ho : obs a with
    | some x =>
      have hx : some x = some v := by
        unfold ffStep at h
        rw [ho] at h
        exact h
      refine ⟨a, List.mem_append_right tl (List.mem_singleton_self a),
        by rw [ho, hx], fun b hb _ => ?_⟩
      rcases List.mem_append.mp hb with hbt | hba
      · exact hle b hbt
      · rw [List.mem_singleton.mp hba]
    | none =>
      have h' : List.foldl (ffStep obs) none tl = some v := by
        unfold ffStep at h
        rw [ho] at h
        exact h
      rcases ih hsp.1 v h' with ⟨a', ha', hobs', hmax'⟩
      refine ⟨a', List.mem_append_left _ ha', hobs', fun b hb hbo => ?_⟩
      rcases List.mem_append.mp hb with hbt | hba
      · exact hmax' b hbt hbo
      · rw [List.mem_singleton.mp hba] at hbo
        exact absurd ho hbo

lemma bestObs_cons_some_le {a : Int} {v : ℚ} {rest : Rows} {d : Int} (had : a ≤ d) :
    bestObs ((a, some v) :: rest) d =
      match bestObs rest d with
      | none => some (a, v)
      | some q => if q.1 < a then some (a, v) else some q := by
  simp [bestObs, had]

lemma bestObs_cons_some_gt {a : Int} {v : ℚ} {rest : Rows} {d : Int} (had : ¬ a ≤ d) :
    bestObs ((a, some v) :: rest) d = bestObs rest d := by
  simp [bestObs, had]

lemma bestObs_none_char (d : Int) :
    ∀ rows : Rows, bestObs rows d = none → ∀ r ∈ rows, r.1 ≤ d → r.2 = none := by
  intro rows
  induction rows with
  | nil => intro _ r hr; exact absurd hr (List.not_mem_nil r)
  | cons r rest ih =>
    intro h q hq hqd
    obtain ⟨a, v⟩ := r
    cases v with
    | none =>
      rw [show bestObs ((a, none) :: rest) d = bestObs rest d from rfl] at h
      rcases List.mem_cons.mp hq with rfl | hqr
      · rfl
      · exact ih h q hqr hqd
    | some v =>
      by_cases had : a ≤ d
      · exfalso
        rw [bestObs_cons_some_le had] at h
        cases hb : bestObs rest d <;> rw [hb] at h
        · exact Option.noConfusion h
        · rename_i q'
          by_cases hlt : q'.1 < a <;> simp [hlt] at h
      · rw [bestObs_cons_some_gt had] at h
        rcases List.mem_cons.mp hq with rfl | hqr
        · exact absurd hqd had
        · exact ih h q hqr hqd

lemma bestObs_some_char (d : Int) :
    ∀ (rows : Rows) (q : Int × ℚ), bestObs rows d = some q →
      (q.1, some q.2) ∈ rows ∧ q.1 ≤ d ∧
        ∀ r ∈ rows, r.2 ≠ none → r.1 ≤ d → r.1 ≤ q.1 := by
  intro rows
  induction rows with
  | nil => intro q h; exact Option.noConfusion h
  | cons r rest ih =>
    intro q h
    obtain ⟨a, v⟩ := r
    cases v with
    | none =>
      rw [show bestObs ((a, none) :: rest) d = bestObs rest d from rfl] at h
      rcases ih q h with ⟨hmem, hqd, hmax⟩
      refine ⟨List.mem_cons_of_mem _ hmem, hqd, fun r hr hrn hrd => ?_⟩
      rcases List.mem_cons.mp hr with rfl | hrr
      · exact absurd rfl hrn
      · exact hmax r hrr hrn hrd
    | some v =>
      by_cases had : a ≤ d
      · rw [bestObs_cons_some_le had] at h
        cases hb : bestObs rest d <;> rw [hb] at h
        · rcases Option.some_inj.mp h with rfl
          refine ⟨List.mem_cons_self _ _, had, fun r hr hrn hrd => ?_⟩
          rcases List.mem_cons.mp hr with rfl | hrr
          · exact le_refl _
          · exfalso
            exact hrn (bestObs_none_char d rest hb r hrr hrd)
        · rename_i q'
          simp only at h
          by_cases hlt : q'.1 < a
          · rw [if_pos hlt] at h
            rcases Option.some_inj.mp h with rfl
            rcases ih q' hb with ⟨_, _, hmax'⟩
            refine ⟨List.mem_cons_self _ _, had, fun r hr hrn hrd => ?_⟩
            rcases List.mem_cons.mp hr with rfl | hrr
            · exact le_refl _
            · exact le_of_lt (lt_of_le_of_lt (hmax' r hrr hrn hrd) hlt)
          · rw [if_neg hlt] at h
            have heq : q' = q := Option.some_inj.mp h
            subst heq
            rcases ih q' hb with ⟨hmem', hqd', hmax'⟩
            refine ⟨List.mem_cons_of_mem _ hmem', hqd', fun r hr hrn hrd => ?_⟩
            rcases List.mem_cons.mp hr with rfl | hrr
            · exact le_of_not_lt hlt
            · exact hmax' r hrr hrn hrd
      · rw [bestObs_cons_some_gt had] at h
        rcases ih q h with ⟨hmem, hqd, hmax⟩
        refine ⟨List.mem_cons_of_mem _ hmem, hqd, fun r hr hrn hrd => ?_⟩
        rcases List.mem_cons.mp hr with rfl | hrr
        · exact absurd hrd had
        · exact hmax r hrr hrn hrd

/-- `obsAt` of a member row, under unique dates. -/
lemma obsAt_of_mem {rows : Rows} (nd : (rows.map Prod.fst).Nodup) {a : Int}
    {w : Option ℚ} (h : (a, w) ∈ rows) : obsAt rows a = w := by
  induction rows with
  | nil => exact absurd h (List.not_mem_nil _)
  | cons r rest ih =>
    have ndr : (rest.map Prod.fst).Nodup := (List.nodup_cons.mp nd).2
    have hni : r.1 ∉ rest.map Prod.fst := (List.nodup_cons.mp nd).1
    rcases List.mem_cons.mp h with rfl | hr
    · unfold obsAt
      simp [List.find?_cons]
    · have hne : r.1 ≠ a := by
        intro heq
        exact hni (heq ▸ List.mem_map_of_mem Prod.fst hr)
      unfold obsAt
      rw [List.find?_cons, decide_eq_false hne]
      exact ih ndr hr

lemma obsAt_eq_some_mem {rows : Rows} {a : Int} {v : ℚ}
    (h : obsAt rows a = some v) : (a, some v) ∈ rows := by
  unfold obsAt at h
  cases hf : rows.find? (fun r => decide (r.1 = a)) with
  | none => rw [hf] at h; exact Option.noConfusion h
  | some r =>
    rw [hf] at h
    have hmem := List.mem_of_find?_eq_some hf
    have hpred := List.find?_some hf
    rw [decide_eq_true_eq] at hpred
    have : r = (a, some v) := by
      obtain ⟨r1, r2⟩ := r
      simp only at hpred h
      rw [hpred, h]
    exact this ▸ hmem

/-- Column lookup in the merged panel finds the frame's own ffilled column
(unique column names). -/
lemma colValues_merge {frames : List Source} (hnd : (frames.map Source.col).Nodup)
    {s : Source} (hs : s ∈ frames) :
    colValues (mergePanel frames) s.col = some (ffillColumn (allDates frames) s) := by
  unfold colValues mergePanel
  simp only
  have : ∀ (fr : List Source), (fr.map Source.col).Nodup → s ∈ fr →
      (fr.map (fun t => (t.col, ffillColumn (allDates frames) t))).find?
        (fun r => decide (r.1 = s.col)) =
        some (s.col, ffillColumn (allDates frames) s) := by
    intro fr
    induction fr with
    | nil => intro _ h; exact absurd h (List.not_mem_nil s)
    | cons t rest ih =>
      intro hnd' hmem
      have hndr : (rest.map Source.col).Nodup := (List.nodup_cons.mp hnd').2
      have hni : t.col ∉ rest.map Source.col := (List.nodup_cons.mp hnd').1
      rcases List.mem_cons.mp hmem with rfl | hr
      · simp [List.find?_cons]
      · have hne : t.col ≠ s.col := by
          intro heq
          exact hni (heq ▸ List.mem_map_of_mem Source.col hr)
        rw [List.map_cons, List.find?_cons, decide_eq_false hne]
        exact ih hndr hr
  rw [this frames hnd hs]
  simp

/-- The merged Panel's cell equals the spec's most recent non-missing observed
value at a date ≤ d — for every date of the panel index, observed or not. -/
lemma merged_value_eq {frames : List Source}
    (hvalid : ∀ t ∈ frames, (t.rows.map Prod.fst).Nodup)
    (hnd : (frames.map Source.col).Nodup)
    {s : Source} (hs : s ∈ frames) {d : Int}
    (hd : d ∈ (mergePanel frames).dates) :
    valueAt (mergePanel frames) s.col d = mostRecentObs s.rows d := by
  have hdM : d ∈ allDates frames := hd
  have hnds : (s.rows.map Prod.fst).Nodup := hvalid s hs
  have hsub : ∀ a : Int, a ∈ s.rows.map Prod.fst → a ∈ allDates frames :=
    fun a ha => mem_allDates.mpr ⟨s, hs, ha⟩
  unfold valueAt
  rw [colValues_merge hnd hs]
  simp only
  have hdates : (mergePanel frames).dates = allDates frames := rfl
  rw [hdates]
  unfold ffillColumn
  rw [ffill_lookup (obsAt s.rows) (allDates frames) (sorted_lt_allDates frames) none d hdM]
  have hLmem : ∀ a : Int, a ∈ (allDates frames).filter (fun x => decide (x ≤ d)) ↔
      a ∈ allDates frames ∧ a ≤ d := by
    intro a
    rw [List.mem_filter]
    simp
  have hLsorted : ((allDates frames).filter (fun x => decide (x ≤ d))).Sorted (· ≤ ·) :=
    ((sorted_lt_allDates frames).filter _).imp le_of_lt
  cases hf : List.foldl (ffStep (obsAt s.rows)) none
      ((allDates frames).filter (fun x => decide (x ≤ d))) with
  | none =>
    have hall := (foldl_ffStep_eq_none _ _ none hf).2
    unfold mostRecentObs
    cases hbo : bestObs s.rows d with
    | none => simp
    | some q =>
      exfalso
      rcases bestObs_some_char d s.rows q hbo with ⟨hmem, hqd, _⟩
      have hq1 : q.1 ∈ (allDates frames).filter (fun x => decide (x ≤ d)) :=
        (hLmem q.1).mpr ⟨hsub q.1 (List.mem_map_of_mem Prod.fst hmem), hqd⟩
      have hcon := hall q.1 hq1
      rw [obsAt_of_mem hnds hmem] at hcon
      exact Option.noConfusion hcon
  | some v =>
    rcases foldl_ffStep_eq_some _ _ hLsorted v hf with ⟨a, haL, hobs, hmax⟩
    have hamem : (a, some v) ∈ s.rows := obsAt_eq_some_mem hobs
    have had : a ≤ d := ((hLmem a).mp haL).2
    unfold mostRecentObs
    cases hbo : bestObs s.rows d with
    | none =>
      exfalso
      have hcon := bestObs_none_char d s.rows hbo (a, some v) hamem had
      exact Option.noConfusion hcon
    | some q =>
      rcases bestObs_some_char d s.rows q hbo with ⟨hmem, hqd, hmaxb⟩
      have haq : a ≤ q.1 := hmaxb (a, some v) hamem (by simp) had
      have hq1L : q.1 ∈ (allDates frames).filter (fun x => decide (x ≤ d)) :=
        (hLmem q.1).mpr ⟨hsub q.1 (List.mem_map_of_mem Prod.fst hmem), hqd⟩
      have hqa : q.1 ≤ a := hmax q.1 hq1L (by rw [obsAt_of_mem hnds hmem]; simp)
      have heqa : a = q.1 := le_antisymm haq hqa
      have hvq : obsAt s.rows q.1 = some q.2 := obsAt_of_mem hnds hmem
      rw [← heqa, hobs] at hvq
      simp [Option.some_inj.mp hvq]

/-- C1: at every panel date with no direct observation of a column, the
merged value is the column's most recent non-missing observed value at a
date ≤ d (`mostRecentObs`), and it is missing when every non-missing
observation of the column lies strictly after d. -/
theorem panel_forward_fill (frames : List Source)
    (hvalid : ∀ t ∈ frames, (t.rows.map Prod.fst).Nodup)
    (hnd : (frames.map Source.col).Nodup)
    (s : Source) (hs : s ∈ frames) (d : Int)
    (hd : d ∈ (mergePanel frames).dates)
    (hno : d ∉ s.rows.map Prod.fst) :
    valueAt (mergePanel frames) s.col d = mostRecentObs s.rows d ∧
    ((∀ r ∈ s.rows, r.2.isSome = true → d < r.1) →
      valueAt (mergePanel frames) s.col d = none) := by
  have hval := merged_value_eq hvalid hnd hs hd
  refine ⟨hval, fun hall => ?_⟩
  rw [hval]
  unfold mostRecentObs
  cases hbo : bestObs s.rows d with
  | none => simp
  | some q =>
    exfalso
    rcases bestObs_some_char d s.rows q hbo with ⟨hmem, hqd, _⟩
    exact absurd hqd (not_le_of_lt (hall (q.1, some q.2) hmem rfl))

theorem panel_forward_fill_witness :
    valueAt (mergePanel [wSrcA, wSrcB]) "A" 2 = mostRecentObs wSrcA.rows 2 ∧
    ((∀ r ∈ wSrcA.rows, r.2.isSome = true → 2 < r.1) →
      valueAt (mergePanel [wSrcA, wSrcB]) "A" 2 = none) :=
  panel_forward_fill [wSrcA, wSrcB] (by decide) (by decide) wSrcA (by decide) 2
    (by decide) (by decide)

/-- C5 counterexample: source "A" is last observed at date 1, yet the Panel
(whose index also holds date 2, contributed by source "B") carries A's value
forward to date 2 — the value there is `some 1`, not missing.  The merge does
extrapolate past the last observed date. -/
theorem ffill_past_last_obs_cex :
    (∀ r ∈ wSrcA.rows, r.1 < 2) ∧
    2 ∈ (mergePanel [wSrcA, wSrcB]).dates ∧
    valueAt (mergePanel [wSrcA, wSrcB]) "A" 2 = some 1 := by
  refine ⟨by decide, by decide, by decide⟩

/-- C5 amended: the merge performs no backward-fill and no interpolation
(the value at any date depends only on observations at dates ≤ d, being the
most recent non-missing one), but forward-fill does extend past the last
observed date: at every panel date strictly after all of a column's
observations the value is still the most recent non-missing observation, and
is non-missing as soon as the column has any non-missing observation. -/
theorem ffill_past_last_obs (frames : List Source)
    (hvalid : ∀ t ∈ frames, (t.rows.map Prod.fst).Nodup)
    (hnd : (frames.map Source.col).Nodup)
    (s : Source) (hs : s ∈ frames) (d : Int)
    (hd : d ∈ (mergePanel frames).dates)
    (hafter : ∀ r ∈ s.rows, r.1 < d) :
    valueAt (mergePanel frames) s.col d = mostRecentObs s.rows d ∧
    ((∃ r ∈ s.rows, r.2.isSome = true) →
      (valueAt (mergePanel frames) s.col d).isSome = true) := by
  have hval := merged_value_eq hvalid hnd hs hd
  refine ⟨hval, fun hex => ?_⟩
  rw [hval]
  unfold mostRecentObs
  cases hbo : bestObs s.rows d with
  | some q => simp
  | none =>
    exfalso
    rcases hex with ⟨r, hr, hrs⟩
    have := bestObs_none_char d s.rows hbo r hr (le_of_lt (hafter r hr))
    rw [this] at hrs
    exact Bool.noConfusion hrs

theorem ffill_past_last_obs_witness :
    valueAt (mergePanel [wSrcA, wSrcB]) "A" 2 = mostRecentObs wSrcA.rows 2 ∧
    ((∃ r ∈ wSrcA.rows, r.2.isSome = true) →
      (valueAt (mergePanel [wSrcA, wSrcB]) "A" 2).isSome = true) :=
  ffill_past_last_obs [wSrcA, wSrcB] (by decide) (by decide) wSrcA (by decide) 2
    (by decide) (by decide)

/-! ## Order independence of the merge (C8) -/

lemma find?_perm_nodup {β : Type} (c : String) {l₁ l₂ : List (String × β)}
    (h : l₁.Perm l₂) :
    (l₁.map Prod.fst).Nodup →
      l₁.find? (fun r => decide (r.1 = c)) = l₂.find? (fun r => decide (r.1 = c)) := by
  induction h with
  | nil => intro _; rfl
  | cons x h ih =>
    intro nd
    rw [List.map_cons] at nd
    have ndt := (List.nodup_cons.mp nd).2
    simp only [List.find?_cons]
    cases hx : decide (x.1 = c)
    · exact ih ndt
    · rfl
  | swap x y l =>
    intro nd
    rw [List.map_cons, List.map_cons] at nd
    have h1 := (List.nodup_cons.mp nd).1
    have hne : y.1 ≠ x.1 := fun heq => h1 (heq ▸ List.mem_cons_self _ _)
    simp only [List.find?_cons]
    cases hy : decide (y.1 = c) <;> cases hx : decide (x.1 = c) <;>
      first
        | rfl
        | exact absurd ((decide_eq_true_eq.mp hy).trans
            (decide_eq_true_eq.mp hx).symm) hne
  | trans h₁ h₂ ih₁ ih₂ =>
    intro nd
    have nd₂ := (h₁.map Prod.fst).nodup_iff.mp nd
    exact (ih₁ nd).trans (ih₂ nd₂)

/-- C8: the merged Panel depends only on the set of normalized sources, not
on the order they are supplied: any permutation yields the same date index
and the same values for every column name. -/
theorem merge_order_independent (f₁ f₂ : List Source) (hperm : f₁.Perm f₂)
    (hnd : (f₁.map Source.col).Nodup) :
    (mergePanel f₁).dates = (mergePanel f₂).dates ∧
    ∀ c, colValues (mergePanel f₁) c = colValues (mergePanel f₂) c := by
  have hdeq : allDates f₁ = allDates f₂ := by
    have hp : ((f₁.map (fun s => s.rows.map Prod.fst)).flatten.dedup).Perm
        ((f₂.map (fun s => s.rows.map Prod.fst)).flatten.dedup) :=
      ((hperm.map _).flatten).dedup
    exact List.eq_of_perm_of_sorted
      ((List.perm_insertionSort _ _).trans (hp.trans (List.perm_insertionSort _ _).symm))
      (sorted_le_allDates f₁) (sorted_le_allDates f₂)
  constructor
  · exact hdeq
  · intro c
    unfold colValues mergePanel
    simp only [hdeq]
    have hpc : (f₁.map (fun s => (s.col, ffillColumn (allDates f₂) s))).Perm
        (f₂.map (fun s => (s.col, ffillColumn (allDates f₂) s))) := hperm.map _
    have hkeys : ((f₁.map (fun s => (s.col, ffillColumn (allDates f₂) s))).map Prod.fst).Nodup := by
      rw [List.map_map]
      simpa [Function.comp] using hnd
    rw [find?_perm_nodup c hpc hkeys]

theorem merge_order_independent_witness :
    (mergePanel [wSrcA, wSrcB]).dates = (mergePanel [wSrcB, wSrcA]).dates ∧
    colValues (mergePanel [wSrcA, wSrcB]) "A" = colValues (mergePanel [wSrcB, wSrcA]) "A" :=
  ⟨(merge_order_independent [wSrcA, wSrcB] [wSrcB, wSrcA]
      (List.Perm.swap wSrcB wSrcA []) (by decide)).1,
   (merge_order_independent [wSrcA, wSrcB] [wSrcB, wSrcA]
      (List.Perm.swap wSrcB wSrcA []) (by decide)).2 "A"⟩

/-! ## Rolling z-score (C4) -/

lemma rollingZ_eq_none_iff (vals : List (Option ℚ)) (t : ℕ) :
    rollingZ vals 90 (90 / 3) t = none ↔
      vals.getD t none = none ∨ rollingCount vals 90 t < 30 ∨
        rollingVar vals 90 t = 0 := by
  cases hx : vals.getD t none with
  | none =>
    rw [List.getD_eq_getElem?_getD] at hx
    simp [rollingZ, hx]
  | some x =>
    rw [List.getD_eq_getElem?_getD] at hx
    by_cases hcnt : rollingCount vals 90 t < 30 <;>
      by_cases hvar : rollingVar vals 90 t = 0 <;>
        simp [rollingZ, hx, hcnt, hvar]

lemma rollingZ_eq_formula (vals : List (Option ℚ)) (t : ℕ) (x : ℚ)
    (hx : vals.getD t none = some x)
    (hcount : 30 ≤ rollingCount vals 90 t)
    (hvar : rollingVar vals 90 t ≠ 0) :
    rollingZ vals 90 (90 / 3) t =
      some (((x : ℝ) - (rollingMean vals 90 t : ℝ)) /
        Real.sqrt (rollingVar vals 90 t)) := by
  rw [List.getD_eq_getElem?_getD] at hx
  simp [rollingZ, hx, Nat.not_lt.mpr hcount, hvar]

/-- Population variance: divisor N (the window's observation count),
not N - 1. -/
lemma rollingVar_mul_count (vals : List (Option ℚ)) (t : ℕ) :
    rollingVar vals 90 t * (rollingCount vals 90 t : ℚ) =
      ((windowVals vals 90 t).map (fun x => (x - rollingMean vals 90 t) ^ 2)).sum := by
  unfold rollingVar
  by_cases hcnt : rollingCount vals 90 t = 0
  · have hnil : windowVals vals 90 t = [] := by
      unfold rollingCount at hcnt
      exact List.length_eq_zero.mp hcnt
    simp [hnil, hcnt]
  · exact div_mul_cancel₀ _ (Nat.cast_ne_zero.mpr hcnt)

lemma windowVals_mem_of_mem {vals : List (Option ℚ)} {w t : ℕ} {x : ℚ}
    (h : x ∈ windowVals vals w t) : some x ∈ vals := by
  unfold windowVals at h
  rcases List.mem_filterMap.mp h with ⟨a, ha, hax⟩
  simp only [id_eq] at hax
  subst hax
  exact List.mem_of_mem_take (List.mem_of_mem_drop ha)

lemma rollingZ_const (vals : List (Option ℚ)) (k : ℚ)
    (hk : ∀ v ∈ vals, v = some k) (t : ℕ) (ht : t < vals.length) :
    rollingZ vals 90 (90 / 3) t = none := by
  have hx : vals.getD t none = some k := by
    rw [List.getD_eq_getElem vals none ht]
    exact hk _ (List.getElem_mem ht)
  rw [List.getD_eq_getElem?_getD] at hx
  by_cases hcnt : rollingCount vals 90 t < 30
  · simp [rollingZ, hx, hcnt]
  · have hall : ∀ x ∈ windowVals vals 90 t, x = k := by
      intro x hxm
      have := hk (some x) (windowVals_mem_of_mem hxm)
      exact Option.some_inj.mp this
    have hn0 : (rollingCount vals 90 t : ℚ) ≠ 0 := by
      have : 30 ≤ rollingCount vals 90 t := Nat.not_lt.mp hcnt
      exact Nat.cast_ne_zero.mpr (by omega)
    have hmean : rollingMean vals 90 t = k := by
      unfold rollingMean
      rw [List.sum_eq_card_nsmul (windowVals vals 90 t) k hall]
      unfold rollingCount
      rw [nsmul_eq_mul]
      exact mul_div_cancel_left₀ k (by
        unfold rollingCount at hn0
        exact hn0)
    have hvar : rollingVar vals 90 t = 0 := by
      unfold rollingVar
      have hz : ((windowVals vals 90 t).map
          (fun x => (x - rollingMean vals 90 t) ^ 2)).sum = 0 := by
        apply List.sum_eq_zero
        intro y hy
        rcases List.mem_map.mp hy with ⟨x, hxm, rfl⟩
        rw [hall x hxm, hmean]
        ring
      rw [hz]
      exact zero_div _
    simp [rollingZ, hx, hcnt, hvar]

/-- C4: each whitelisted column present in the (arithmetically enriched)
Panel gets a z-score column `c_Z90`; its cell at row t is
(value - trailing-90-row mean) / trailing population standard deviation,
with `min_periods = 90 // 3 = 30`; it is missing exactly when the value is
missing, the window holds fewer than 30 observations, or the window variance
is zero; the variance uses divisor N; and a constant-valued column has a
missing z-score at every row, never zero. -/
theorem rolling_z_whitelisted (p : Panel) (c : String)
    (hc : c ∈ zWhitelist) (hp : hasCol (add_arith p) c = true) :
    (90 / 3 : ℕ) = 30 ∧
    (c ++ "_Z90", zColumn (getCol (add_arith p) c)) ∈ (add_derived p).zcols ∧
    (∀ t, t < (getCol (add_arith p) c).length →
      (zColumn (getCol (add_arith p) c))[t]? =
        some (rollingZ (getCol (add_arith p) c) 90 (90 / 3) t)) ∧
    (∀ t, rollingZ (getCol (add_arith p) c) 90 (90 / 3) t = none ↔
      (getCol (add_arith p) c).getD t none = none ∨
      rollingCount (getCol (add_arith p) c) 90 t < 30 ∨
      rollingVar (getCol (add_arith p) c) 90 t = 0) ∧
    (∀ t x, (getCol (add_arith p) c).getD t none = some x →
      30 ≤ rollingCount (getCol (add_arith p) c) 90 t →
      rollingVar (getCol (add_arith p) c) 90 t ≠ 0 →
      rollingZ (getCol (add_arith p) c) 90 (90 / 3) t =
        some (((x : ℝ) - (rollingMean (getCol (add_arith p) c) 90 t : ℝ)) /
          Real.sqrt (rollingVar (getCol (add_arith p) c) 90 t))) ∧
    (∀ t, rollingVar (getCol (add_arith p) c) 90 t *
        (rollingCount (getCol (add_arith p) c) 90 t : ℚ) =
      ((windowVals (getCol (add_arith p) c) 90 t).map
        (fun x => (x - rollingMean (getCol (add_arith p) c) 90 t) ^ 2)).sum) ∧
    (∀ k : ℚ, (∀ v ∈ getCol (add_arith p) c, v = some k) →
      ∀ t, t < (getCol (add_arith p) c).length →
        rollingZ (getCol (add_arith p) c) 90 (90 / 3) t = none) := by
  refine ⟨rfl, ?_, ?_, ?_, ?_, ?_, ?_⟩
  · unfold add_derived
    simp only
    exact List.mem_map_of_mem _ (List.mem_filter.mpr ⟨hc, hp⟩)
  · intro t ht
    simp [zColumn, List.getElem?_map, List.getElem?_range, ht]
  · intro t
    exact rollingZ_eq_none_iff _ t
  · intro t x hx hcount hvar
    exact rollingZ_eq_formula _ t x hx hcount hvar
  · intro t
    exact rollingVar_mul_count _ t
  · intro k hk t ht
    exact rollingZ_const _ k hk t ht

def cPanelIG : Panel := ⟨[1], [("IG_OAS", [some 1])]⟩

theorem rolling_z_whitelisted_witness :
    (90 / 3 : ℕ) = 30 ∧
    ("IG_OAS" ++ "_Z90", zColumn (getCol (add_arith cPanelIG) "IG_OAS")) ∈
      (add_derived cPanelIG).zcols ∧
    (∀ t, t < (getCol (add_arith cPanelIG) "IG_OAS").length →
      (zColumn (getCol (add_arith cPanelIG) "IG_OAS"))[t]? =
        some (rollingZ (getCol (add_arith cPanelIG) "IG_OAS") 90 (90 / 3) t)) ∧
    (∀ t, rollingZ (getCol (add_arith cPanelIG) "IG_OAS") 90 (90 / 3) t = none ↔
      (getCol (add_arith cPanelIG) "IG_OAS").getD t none = none ∨
      rollingCount (getCol (add_arith cPanelIG) "IG_OAS") 90 t < 30 ∨
      rollingVar (getCol (add_arith cPanelIG) "IG_OAS") 90 t = 0) ∧
    (∀ t x, (getCol (add_arith cPanelIG) "IG_OAS").getD t none = some x →
      30 ≤ rollingCount (getCol (add_arith cPanelIG) "IG_OAS") 90 t →
      rollingVar (getCol (add_arith cPanelIG) "IG_OAS") 90 t ≠ 0 →
      rollingZ (getCol (add_arith cPanelIG) "IG_OAS") 90 (90 / 3) t =
        some (((x : ℝ) - (rollingMean (getCol (add_arith cPanelIG) "IG_OAS") 90 t : ℝ)) /
          Real.sqrt (rollingVar (getCol (add_arith cPanelIG) "IG_OAS") 90 t))) ∧
    (∀ t, rollingVar (getCol (add_arith cPanelIG) "IG_OAS") 90 t *
        (rollingCount (getCol (add_arith cPanelIG) "IG_OAS") 90 t : ℚ) =
      ((windowVals (getCol (add_arith cPanelIG) "IG_OAS") 90 t).map
        (fun x => (x - rollingMean (getCol (add_arith cPanelIG) "IG_OAS") 90 t) ^ 2)).sum) ∧
    (∀ k : ℚ, (∀ v ∈ getCol (add_arith cPanelIG) "IG_OAS", v = some k) →
      ∀ t, t < (getCol (add_arith cPanelIG) "IG_OAS").length →
        rollingZ (getCol (add_arith cPanelIG) "IG_OAS") 90 (90 / 3) t = none) :=
  rolling_z_whitelisted cPanelIG "IG_OAS" (by decide) (by decide)

/-! ## WindowAggregator (C9) -/

lemma colValues_some_of_hasCol {p : Panel} {c : String} (h : hasCol p c = true) :
    colValues p c = some (getCol p c) := by
  unfold hasCol at h
  rcases List.any_eq_true.mp h with ⟨r, hr, hpr⟩
  unfold colValues getCol colValues
  cases hf : p.cols.find? (fun r => decide (r.1 = c)) with
  | none =>
    exfalso
    have := List.find?_eq_none.mp hf r hr
    exact this hpr
  | some r' => simp [hf]

lemma sorted_getLast?_eq_max :
    ∀ (l : List Int), l.Sorted (· < ·) → ∀ e, e ∈ l → (∀ b ∈ l, b ≤ e) →
      l.getLast? = some e := by
  intro l
  induction l with
  | nil => intro _ e he; exact absurd he (List.not_mem_nil e)
  | cons a tl ih =>
    intro hsort e he hub
    cases tl with
    | nil =>
      rcases List.mem_cons.mp he with rfl | h
      · rfl
      · exact absurd h (List.not_mem_nil e)
    | cons b tl2 =>
      have hab : a < b := (List.sorted_cons.mp hsort).1 b (List.mem_cons_self b tl2)
      have hetl : e ∈ b :: tl2 := by
        rcases List.mem_cons.mp he with rfl | h
        · exact absurd (hub b (List.mem_cons_of_mem _ (List.mem_cons_self b tl2)))
            (not_le_of_lt hab)
        · exact h
      rw [List.getLast?_cons_cons]
      exact ih (List.sorted_cons.mp hsort).2 e hetl
        (fun b' hb' => hub b' (List.mem_cons_of_mem _ hb'))

lemma find?_zip_getLast :
    ∀ (dates : List Int) (vs : List (Option ℚ)), dates.Sorted (· < ·) →
      vs.length = dates.length → ∀ e, dates.getLast? = some e →
      ((dates.zip vs).find? (fun r => decide (r.1 = e))).bind Prod.snd =
        vs.getLast?.getD none := by
  intro dates
  induction dates with
  | nil => intro vs _ _ e he; exact Option.noConfusion he
  | cons a tl ih =>
    intro vs hsort hlen e he
    cases vs with
    | nil => exact absurd hlen.symm (by simp)
    | cons v vtl =>
      cases tl with
      | nil =>
        have : e = a := by
          rw [show (([a] : List Int)).getLast? = some a from rfl] at he
          exact (Option.some_inj.mp he).symm
        subst this
        have : vtl = [] := by
          rw [List.length_cons] at hlen
          simpa using List.length_eq_zero.mp (by simpa using hlen)
        subst this
        simp [List.find?_cons]
      | cons b tl2 =>
        rw [List.getLast?_cons_cons] at he
        have hmem : e ∈ b :: tl2 := List.mem_of_getLast?_eq_some he
        have hae : a < e := (List.sorted_cons.mp hsort).1 e hmem
        have hne : ¬ (a = e) := ne_of_lt hae
        cases vtl with
        | nil =>
          exfalso
          rw [List.length_cons, List.length_cons, List.length_cons] at hlen
          simp at hlen
        | cons w wtl =>
          rw [List.zip_cons_cons, List.find?_cons, decide_eq_false hne]
          have hlen' : (w :: wtl).length = (b :: tl2).length := by
            simpa using hlen
          rw [List.getLast?_cons_cons]
          exact ih (w :: wtl) (List.sorted_cons.mp hsort).2 hlen' e he

lemma max?_mem_ub {l : List Int} {e : Int} (h : l.max? = some e) :
    e ∈ l ∧ ∀ b ∈ l, b ≤ e := by
  haveI : Std.Antisymm ((· : ℤ) ≤ ·) := ⟨fun h h' => le_antisymm h h'⟩
  exact (List.max?_eq_some_iff (fun a => le_refl a) (fun a b => max_choice a b)
    (fun _ _ _ => max_le_iff)).mp h

/-- The current value (`iloc[-1]`) is the Panel value at the latest date. -/
lemma valueAt_max {p : Panel} {col : String} (hcol : hasCol p col = true)
    (hsort : p.dates.Sorted (· < ·))
    (hlen : (getCol p col).length = p.dates.length)
    {e : Int} (hmax : p.dates.max? = some e) :
    valueAt p col e = (getCol p col).getLast?.getD none := by
  rcases max?_mem_ub hmax with ⟨hmem, hub⟩
  have hlast : p.dates.getLast? = some e := sorted_getLast?_eq_max _ hsort e hmem hub
  unfold valueAt
  rw [colValues_some_of_hasCol hcol]
  exact find?_zip_getLast p.dates (getCol p col) hsort hlen e hlast

def tabPanel : Panel := ⟨[0, 390, 400], [("HY_OAS", [some 1, some 3, some 5])]⟩

/-- C9: with `end` the latest Panel date, each metric row of the summary
reports current = the Panel value at `end`, and the max and min over the
non-missing values of the 1-year window (rows with date ≥ end - 365),
rounded to 2 decimals at the presentation boundary.  In particular a metric
with values 1.0 at end-400, 3.0 at end-10 and 5.0 at end yields current=5.0,
max=5.0, min=3.0: the point 400 days back falls outside the window. -/
theorem window_aggregator :
    (∀ (p : Panel) (col label : String), (col, label) ∈ metricsList →
      hasCol p col = true → p.dates.Sorted (· < ·) →
      (getCol p col).length = p.dates.length →
      ∀ e, p.dates.max? = some e →
        SummaryRow.mk label ((valueAt p col e).map round2)
          ((windowObs p col (e - 365)).max?.map round2)
          ((windowObs p col (e - 365)).min?.map round2) ∈ build_current_table p) ∧
    build_current_table tabPanel =
      [SummaryRow.mk "HY OAS" (some 5) (some 5) (some 3)] := by
  constructor
  · intro p col label hm hcol hsort hlen e hmax
    unfold build_current_table
    rw [hmax]
    apply List.mem_filterMap.mpr
    refine ⟨(col, label), hm, ?_⟩
    simp only [hcol, if_true]
    rw [valueAt_max hcol hsort hlen hmax]
  · simp [build_current_table, tabPanel, metricsList, hasCol, getCol,
      colValues, windowObs, List.filter_cons, List.filterMap_cons,
      List.max?, List.min?]
    norm_num [round2, round_eq, max_def, min_def]

theorem window_aggregator_witness :
    SummaryRow.mk "HY OAS" ((valueAt tabPanel "HY_OAS" 400).map round2)
      ((windowObs tabPanel "HY_OAS" (400 - 365)).max?.map round2)
      ((windowObs tabPanel "HY_OAS" (400 - 365)).min?.map round2) ∈
      build_current_table tabPanel :=
  window_aggregator.1 tabPanel "HY_OAS" "HY OAS" (by decide) (by decide)
    (by decide) (by decide) 400 (by decide)

end BondDashboard
